import Mathlib

/-!
Shallow embedding of the `searchable-encryption` npm package (source files:
the implementation embedded in `README.md`, and the older `crypto.js`).

Modelling conventions:
* A JS `ArrayBuffer`/`Uint8Array`/Node `Buffer` is a `List Nat`; the predicate
  `ByteWF` states every entry is a byte (`< 256`).
* A JS string is a `List Nat` of Unicode code points (`Str`).
* Node `Buffer.from`/`Buffer.prototype.toString` codecs for the encodings the
  package exercises (`hex`, `utf-8`, `ascii`) are implemented faithfully,
  including Node's silent truncation of hex input at the first invalid
  character and the WHATWG replacement-character behaviour of utf-8 decoding.
* `crypto.subtle.digest` is a parameter `H : String → Bytes → Bytes`
  (algorithm name and input bytes to hash bytes); PBKDF2 (`deriveBits`)
  is a parameter `P : String → Bytes → Bytes → Nat → Nat → Bytes`
  (hash name, password bytes, salt bytes, iterations, output length in bytes).
* The AES block cipher is a parameter `encB/decB : Bytes → Bytes → Bytes`
  (key, 16-byte block to block); CBC chaining and PKCS#7 padding performed by
  `crypto.subtle.encrypt/decrypt` with `AES-CBC` are implemented explicitly.
* JS optional parameters are `Option` arguments; a default is applied with
  `Option.getD` exactly where the source applies it.
* Exceptions become `Except JsError`; `JsError` names the concrete JS error
  classes the underlying APIs throw.
* Ambient randomness (`crypto.getRandomValues(new Uint8Array(512))`) is an
  explicit input: the draw is `randomBytes512 r` for an input entropy list `r`.
-/

namespace SE

/-- Byte sequences (JS `ArrayBuffer` / `Uint8Array` contents). -/
abbrev Bytes := List Nat

/-- JS strings, as sequences of Unicode code points. -/
abbrev Str := List Nat

/-- Every entry is an actual byte. -/
def ByteWF (bs : Bytes) : Prop := ∀ b ∈ bs, b < 256

instance (bs : Bytes) : Decidable (ByteWF bs) := by
  unfold ByteWF; infer_instance

/-- A Unicode scalar value: a code point that is not a surrogate. -/
def ValidScalar (c : Nat) : Prop := c < 0xD800 ∨ (0xE000 ≤ c ∧ c < 0x110000)

instance (c : Nat) : Decidable (ValidScalar c) := by
  unfold ValidScalar; infer_instance

/-- A JS string all of whose code points are Unicode scalar values. -/
def ValidStr (s : Str) : Prop := ∀ c ∈ s, ValidScalar c

instance (s : Str) : Decidable (ValidStr s) := by
  unfold ValidStr; infer_instance

/-- Embed a Lean string literal as a `Str` (list of code points). -/
def strLit (s : String) : Str := s.data.map Char.toNat

/-- Errors thrown by the JS runtime / WebCrypto / during these operations. -/
inductive JsError where
  /-- `TypeError`: a value that is not a function was called. -/
  | typeError
  /-- `DataError`: `crypto.subtle.importKey` rejected the raw key data. -/
  | dataError
  /-- `OperationError`: a WebCrypto operation (deriveBits/decrypt) failed. -/
  | operationError
deriving DecidableEq

-- ------------ Node Buffer codecs ------------

/-- Lowercase hex digit for a nibble, as used by `Buffer.toString('hex')`. -/
def hexDigitChar (n : Nat) : Nat := if n < 10 then 48 + n else 87 + n

/-- `Buffer.toString('hex')`: two lowercase hex digits per byte. -/
def hexEncode (bs : Bytes) : Str :=
  bs.flatMap fun b => [hexDigitChar (b / 16), hexDigitChar (b % 16)]

/-- Value of a hex digit character (upper or lower case), if any. -/
def hexVal (c : Nat) : Option Nat :=
  if 48 ≤ c ∧ c ≤ 57 then some (c - 48)
  else if 97 ≤ c ∧ c ≤ 102 then some (c - 87)
  else if 65 ≤ c ∧ c ≤ 70 then some (c - 55)
  else none

/-- `Buffer.from(string, 'hex')`: decodes pairs of hex digits and silently
stops at the first character pair that is not valid hex (Node semantics);
a trailing lone digit is likewise dropped. -/
def hexDecode : Str → Bytes
  | c1 :: c2 :: rest =>
    match hexVal c1, hexVal c2 with
    | some h, some l => (h * 16 + l) :: hexDecode rest
    | _, _ => []
  | _ => []

/-- UTF-8 encoding of one code point; a lone surrogate becomes the
replacement character U+FFFD's bytes, as Node's utf-8 encoder does. -/
def utf8EncodeChar (c : Nat) : Bytes :=
  if c < 0x80 then [c]
  else if c < 0x800 then [0xC0 + c / 64, 0x80 + c % 64]
  else if 0xD800 ≤ c ∧ c < 0xE000 then [0xEF, 0xBF, 0xBD]
  else if c < 0x10000 then [0xE0 + c / 4096, 0x80 + c / 64 % 64, 0x80 + c % 64]
  else [0xF0 + c / 262144, 0x80 + c / 4096 % 64, 0x80 + c / 64 % 64, 0x80 + c % 64]

/-- `Buffer.from(string, 'utf-8')`. -/
def utf8Encode (s : Str) : Bytes := s.flatMap utf8EncodeChar

/-- Lower bound for the first continuation byte after lead byte `b` of a
three-byte sequence (WHATWG: `0xE0` forbids overlong encodings). -/
def cont3lo (b : Nat) : Nat := if b = 0xE0 then 0xA0 else 0x80

/-- Upper bound for the first continuation byte after lead byte `b` of a
three-byte sequence (WHATWG: `0xED` forbids surrogates). -/
def cont3hi (b : Nat) : Nat := if b = 0xED then 0x9F else 0xBF

/-- Lower bound for the first continuation byte after lead byte `b` of a
four-byte sequence (WHATWG: `0xF0` forbids overlong encodings). -/
def cont4lo (b : Nat) : Nat := if b = 0xF0 then 0x90 else 0x80

/-- Upper bound for the first continuation byte after lead byte `b` of a
four-byte sequence (WHATWG: `0xF4` caps code points at U+10FFFF). -/
def cont4hi (b : Nat) : Nat := if b = 0xF4 then 0x8F else 0xBF

/-- `Buffer.toString('utf-8')`: the WHATWG UTF-8 decoder, emitting U+FFFD on
malformed input and resuming at the offending byte. -/
def utf8Decode : Bytes → Str
  | [] => []
  | b :: bs =>
    if b < 0x80 then b :: utf8Decode bs
    else if b < 0xC2 then 0xFFFD :: utf8Decode bs
    else if b < 0xE0 then
      match bs with
      | [] => [0xFFFD]
      | b1 :: bs1 =>
        if 0x80 ≤ b1 ∧ b1 < 0xC0 then
          ((b - 0xC0) * 64 + (b1 - 0x80)) :: utf8Decode bs1
        else 0xFFFD :: utf8Decode (b1 :: bs1)
    else if b < 0xF0 then
      match bs with
      | [] => [0xFFFD]
      | b1 :: bs1 =>
        if cont3lo b ≤ b1 ∧ b1 ≤ cont3hi b then
          match bs1 with
          | [] => [0xFFFD]
          | b2 :: bs2 =>
            if 0x80 ≤ b2 ∧ b2 < 0xC0 then
              ((b - 0xE0) * 4096 + (b1 - 0x80) * 64 + (b2 - 0x80)) :: utf8Decode bs2
            else 0xFFFD :: utf8Decode (b2 :: bs2)
        else 0xFFFD :: utf8Decode (b1 :: bs1)
    else if b < 0xF5 then
      match bs with
      | [] => [0xFFFD]
      | b1 :: bs1 =>
        if cont4lo b ≤ b1 ∧ b1 ≤ cont4hi b then
          match bs1 with
          | [] => [0xFFFD]
          | b2 :: bs2 =>
            if 0x80 ≤ b2 ∧ b2 < 0xC0 then
              match bs2 with
              | [] => [0xFFFD]
              | b3 :: bs3 =>
                if 0x80 ≤ b3 ∧ b3 < 0xC0 then
                  ((b - 0xF0) * 262144 + (b1 - 0x80) * 4096 +
                    (b2 - 0x80) * 64 + (b3 - 0x80)) :: utf8Decode bs3
                else 0xFFFD :: utf8Decode (b3 :: bs3)
            else 0xFFFD :: utf8Decode (b2 :: bs2)
        else 0xFFFD :: utf8Decode (b1 :: bs1)
    else 0xFFFD :: utf8Decode bs

/-- The textual encodings this package exercises. -/
inductive Encoding where
  | hex
  | utf8
  | ascii
deriving DecidableEq

/--
`ab2str(arrayBuffer, encoding = "hex")` from the source:
`Buffer.from(arrayBuffer).toString(encoding)`.
`'ascii'` decoding unsets the highest bit of each byte (Node semantics).
-/
def ab2str (arrayBuffer : Bytes) (encoding : Option Encoding) : Str :=
  match encoding.getD .hex with
  | .hex => hexEncode arrayBuffer
  | .utf8 => utf8Decode arrayBuffer
  | .ascii => arrayBuffer.map (· % 128)

/--
`str2ab(string, encoding = "hex")` from the source:
`Buffer.from(string, encoding)` copied into a fresh `Uint8Array`.
`'ascii'` encoding keeps the low 8 bits of each code unit (Node semantics).
-/
def str2ab (string : Str) (encoding : Option Encoding) : Bytes :=
  match encoding.getD .hex with
  | .hex => hexDecode string
  | .utf8 => utf8Encode string
  | .ascii => string.map (· % 256)

/-- `abConcat(...buffers)` from the source, at its only use site (two
buffers): concatenation of the byte sequences. -/
def abConcat (a b : Bytes) : Bytes := a ++ b

-- ------------ AES-CBC as performed by crypto.subtle ------------

/-- Pointwise XOR of two byte sequences (of equal length at every use). -/
def xorBytes (a b : Bytes) : Bytes := List.zipWith (fun x y => x ^^^ y) a b

/-- PKCS#7 padding to a 16-byte block boundary, as `crypto.subtle.encrypt`
with `AES-CBC` applies before encrypting. -/
def pkcs7pad (bs : Bytes) : Bytes :=
  let p := 16 - bs.length % 16
  bs ++ List.replicate p p

/-- PKCS#7 unpadding with full validity check, as `crypto.subtle.decrypt`
with `AES-CBC` performs; `none` is the thrown `OperationError`. -/
def pkcs7unpad (bs : Bytes) : Option Bytes :=
  match bs.getLast? with
  | none => none
  | some p =>
    if 1 ≤ p ∧ p ≤ 16 ∧ p ≤ bs.length ∧ (bs.drop (bs.length - p)).all (· == p)
    then some (bs.take (bs.length - p)) else none

/-- CBC encryption of `n` 16-byte blocks of `msg` under block function
`encB` with chaining value `prev`. -/
def cbcEncN (encB : Bytes → Bytes) : Nat → Bytes → Bytes → Bytes
  | 0, _, _ => []
  | n + 1, prev, msg =>
    encB (xorBytes (msg.take 16) prev) ++
      cbcEncN encB n (encB (xorBytes (msg.take 16) prev)) (msg.drop 16)

/-- CBC decryption of `n` 16-byte blocks of `ct` under block function
`decB` with chaining value `prev`. -/
def cbcDecN (decB : Bytes → Bytes) : Nat → Bytes → Bytes → Bytes
  | 0, _, _ => []
  | n + 1, prev, ct =>
    xorBytes (decB (ct.take 16)) prev ++ cbcDecN decB n (ct.take 16) (ct.drop 16)

/-- `crypto.subtle.encrypt({name: "AES-CBC", iv}, key, data)`: PKCS#7 pad,
then CBC-encrypt with the block cipher `encB` keyed by `key`. -/
def aesCbcEncrypt (encB : Bytes → Bytes → Bytes) (key iv data : Bytes) : Bytes :=
  cbcEncN (encB key) ((pkcs7pad data).length / 16) iv (pkcs7pad data)

/-- `crypto.subtle.decrypt({name: "AES-CBC", iv}, key, data)`: reject data
that is empty or not block-aligned, CBC-decrypt, then validate and strip the
PKCS#7 padding; `none` is the thrown `OperationError`. -/
def aesCbcDecrypt (decB : Bytes → Bytes → Bytes) (key iv data : Bytes) : Option Bytes :=
  if data.length % 16 = 0 ∧ 0 < data.length then
    pkcs7unpad (cbcDecN (decB key) (data.length / 16) iv data)
  else none

-- ------------ Key material ------------

/-- The object returned by `genSecretKey`: `{key, iv, secretSalt}`. The
`CryptoKey` is represented by its raw 32 bytes (it was imported extractable). -/
structure KeyObject where
  key : Bytes
  iv : Bytes
  secretSalt : Bytes
deriving DecidableEq

/-- A string-or-ArrayBuffer value (`typeof x === "string"` dispatch). -/
abbrev StrOrBytes := Sum Str Bytes

/-- The 512-byte draw `crypto.getRandomValues(new Uint8Array(512))`, from an
explicit entropy input `r`. -/
def randomBytes512 (r : Bytes) : Bytes := (r ++ List.replicate 512 0).take 512

/-- The options bag of `genSecretKey`; `none` means the property was absent
so the destructuring default applies. -/
structure GenOptions where
  hash : Option String := none
  salt : Option StrOrBytes := none
  iterations : Option Nat := none
  keyLengthByte : Option Nat := none

/--
`genSecretKey(secret = "PASSPHRASE", options = {})` from the source.

* `P` stands for `crypto.subtle.deriveBits` with PBKDF2 over the imported
  passphrase key: `P hash passwordBytes saltBytes iterations lengthBytes`.
  Both `deriveBits` calls pass the same imported `deriveBitsKey`, which here
  shows as both calls receiving the same `str2ab secret none` bytes
  (note the source's `str2ab(secret)` decodes the passphrase with the
  default `'hex'` encoding).
* `rand1`/`rand2` feed the two `crypto.getRandomValues(new Uint8Array(512))`
  draws: the default main salt and the secretSalt-derivation salt.
* WebCrypto failure points kept: PBKDF2 `deriveBits` throws `OperationError`
  on zero iterations or zero length ([EnforceRange] floors the JS float
  `iterations / 2`, giving `iterations / 2` in `Nat`); `importKey` of the
  first 32 derived bytes as a raw AES key throws `DataError` unless the
  slice has length 16, 24 or 32.
-/
def genSecretKey (P : String → Bytes → Bytes → Nat → Nat → Bytes)
    (secret : Option Str) (options : GenOptions) (rand1 rand2 : Bytes) :
    Except JsError KeyObject :=
  let secret := secret.getD (strLit "PASSPHRASE")
  let hash := options.hash.getD "SHA-256"
  let salt : StrOrBytes := options.salt.getD (.inr (randomBytes512 rand1))
  let iterations := options.iterations.getD 999
  let keyLengthByte := options.keyLengthByte.getD 48
  let deriveBitsKey := str2ab secret none
  let saltBuffer := match salt with | .inl s => str2ab s none | .inr b => b
  if iterations = 0 ∨ keyLengthByte = 0 then .error .operationError else
  let derivedBits := P hash deriveBitsKey saltBuffer iterations keyLengthByte
  let derivedKey := derivedBits.take 32
  let iv := derivedBits.drop (derivedBits.length - 16)
  if derivedKey.length = 16 ∨ derivedKey.length = 24 ∨ derivedKey.length = 32 then
    if iterations / 2 = 0 then .error .operationError else
    let secretSalt := P hash deriveBitsKey (randomBytes512 rand2) (iterations / 2) 32
    .ok { key := derivedKey, iv := iv, secretSalt := secretSalt }
  else .error .dataError

-- ------------ Basic Cryptography functions (README implementation) ------------

/-- The options bag of `digest`. -/
structure DigestOptions where
  hash : Option String := none
  salt : Option StrOrBytes := none

/-- `typeof x === "string" ? str2ab(x, "utf-8") : x`, as `digest` converts
its data and salt. -/
def toBuffer (x : StrOrBytes) : Bytes :=
  match x with
  | .inl s => str2ab s (some .utf8)
  | .inr b => b

/--
`digest(data, options = {})` from the source:
defaults `hash = "SHA-256"`, `salt = "DEFAULT-SALT"`; converts string data
and salt to bytes via UTF-8; hashes `abConcat(dataBuffer, saltBuffer)` with
`crypto.subtle.digest` (the parameter `H`); returns `ab2str(hashBuffer)`,
i.e. hex text by ab2str's default.
-/
def digest (H : String → Bytes → Bytes) (data : StrOrBytes)
    (options : DigestOptions) : Str :=
  let hash := options.hash.getD "SHA-256"
  let salt := options.salt.getD (.inl (strLit "DEFAULT-SALT"))
  let saltBuffer := toBuffer salt
  let dataBuffer := toBuffer data
  let hashBuffer := H hash (abConcat dataBuffer saltBuffer)
  ab2str hashBuffer none

/--
`encrypt(text, keyObject, encoding)` from the README implementation:
UTF-8-encodes the text, AES-CBC-encrypts it under `(keyObject.key,
keyObject.iv)`, and renders the ciphertext with `ab2str(buffer, encoding)`
(so an omitted encoding falls back to ab2str's `'hex'` default).
-/
def encrypt (encB : Bytes → Bytes → Bytes) (text : Str) (keyObject : KeyObject)
    (encoding : Option Encoding) : Str :=
  ab2str (aesCbcEncrypt encB keyObject.key keyObject.iv (str2ab text (some .utf8))) encoding

/--
`decrypt(encryptedData, keyObject, encoding)` from the README implementation,
for string input: decodes the text with `str2ab(encryptedData, encoding)`
(defaulting to `'hex'`), AES-CBC-decrypts, and returns the UTF-8 rendering
of the plaintext bytes. A failed decryption is the thrown `OperationError`.
-/
def decrypt (decB : Bytes → Bytes → Bytes) (encryptedData : Str)
    (keyObject : KeyObject) (encoding : Option Encoding) : Except JsError Str :=
  match aesCbcDecrypt decB keyObject.key keyObject.iv (str2ab encryptedData encoding) with
  | some decryptedText => .ok (ab2str decryptedText (some .utf8))
  | none => .error .operationError

-- ------------ SSE functions (README implementation) ------------

/-- `trapdoor(query, secretKey)` from the source:
`digest(query, {salt: secretKey.secretSalt})`. -/
def trapdoor (H : String → Bytes → Bytes) (query : StrOrBytes)
    (secretKey : KeyObject) : Str :=
  digest H query { salt := some (.inr secretKey.secretSalt) }

/-- A document's `data` payload: a string or a byte buffer. -/
inductive DocData where
  | str : Str → DocData
  | buf : Bytes → DocData

/-- A document `{pointer, data}`. -/
structure Document where
  pointer : Str
  data : DocData

/-- The built index: a JS object used as a map from trapdoor (hex string)
to the array of document pointers, in insertion order. -/
abbrev IndexTable := List (Str × List Str)

/-- `if (!indexTable[trapdoor]) indexTable[trapdoor] = [];
indexTable[trapdoor].push(doc.pointer)`. -/
def tableAppend (t : IndexTable) (key : Str) (p : Str) : IndexTable :=
  if ∃ e ∈ t, e.1 = key then
    t.map (fun e => if e.1 = key then (e.1, e.2 ++ [p]) else e)
  else t ++ [(key, [p])]

/-- Lookup of a trapdoor key in the index object. -/
def lookupTable : IndexTable → Str → Option (List Str)
  | [], _ => none
  | e :: t, key => if e.1 = key then some e.2 else lookupTable t key

/-- JS iteration over `new Set(...)`: first occurrences, in insertion
order. -/
def dedupGo (seen : List Str) : List Str → List Str
  | [] => []
  | x :: xs => if seen.contains x then dedupGo seen xs
               else x :: dedupGo (seen ++ [x]) xs

/-- Distinct elements of a list, in first-occurrence order. -/
def dedup (l : List Str) : List Str := dedupGo [] l

/-- `string.split(" ")`: split at every single space, keeping empty
fragments. -/
def splitSpace : Str → List Str
  | [] => [[]]
  | c :: cs =>
    if c = 32 then [] :: splitSpace cs
    else
      match splitSpace cs with
      | w :: ws => (c :: w) :: ws
      | [] => [[c]]

/-- The fallback keyword extractor `(e) => new Set(e.split(" "))`; on
non-string data JS would throw `TypeError` (`e.split` is not a function). -/
def defaultGetKeywords (d : DocData) : Except JsError (List StrOrBytes) :=
  match d with
  | .str s => .ok ((dedup (splitSpace s)).map Sum.inl)
  | .buf _ => .error .typeError

/-- The document loop of `buildIndex`: for each document obtain its
keywords (a missing extractor makes the call `getKeywords(doc.data)` throw
`TypeError`), hash each keyword with the secretSalt, and push the pointer
under the resulting trapdoor key. -/
def buildIndexGo (H : String → Bytes → Bytes) (secretKey : KeyObject)
    (gk : Option (DocData → Except JsError (List StrOrBytes))) :
    List Document → IndexTable → Except JsError IndexTable
  | [], indexTable => .ok indexTable
  | doc :: docs, indexTable =>
    match gk with
    | none => .error .typeError
    | some getKeywords =>
      match getKeywords doc.data with
      | .error e => .error e
      | .ok keywords =>
        let indexTable := keywords.foldl
          (fun acc keyword =>
            tableAppend acc
              (digest H keyword { salt := some (.inr secretKey.secretSalt) })
              doc.pointer)
          indexTable
        buildIndexGo H secretKey gk docs indexTable

/--
`buildIndex(documents = [], secretKey, getKeywords)` from the source:
installs the whitespace-tokenizing fallback only when no `getKeywords`
function was passed and the first document's data is a string, then runs
the document loop starting from the empty object.
-/
def buildIndex (H : String → Bytes → Bytes) (documents : List Document)
    (secretKey : KeyObject)
    (getKeywords : Option (DocData → Except JsError (List StrOrBytes))) :
    Except JsError IndexTable :=
  let gk :=
    match getKeywords, documents with
    | some g, _ => some g
    | none, ⟨_, .str _⟩ :: _ => some defaultGetKeywords
    | none, _ => none
  buildIndexGo H secretKey gk documents []

end SE

namespace CryptoJs

open SE

/--
`encrypt(text, keyObject, encoding)` from `crypto.js`: unlike the README
implementation it decodes the plaintext with `str2ab(text, encoding)` —
the ciphertext encoding, defaulting to `'hex'` — rather than UTF-8.
-/
def encrypt (encB : Bytes → Bytes → Bytes) (text : Str) (keyObject : KeyObject)
    (encoding : Option Encoding) : Str :=
  ab2str (aesCbcEncrypt encB keyObject.key keyObject.iv (str2ab text encoding)) encoding

/--
`decrypt(encryptedText, keyObject, encoding)` from `crypto.js`: decodes the
ciphertext with `str2ab(encryptedText, encoding)` and renders the plaintext
with `ab2str(decryptedText, encoding)` — the same encoding, not UTF-8.
-/
def decrypt (decB : Bytes → Bytes → Bytes) (encryptedText : Str)
    (keyObject : KeyObject) (encoding : Option Encoding) : Except JsError Str :=
  match aesCbcDecrypt decB keyObject.key keyObject.iv (str2ab encryptedText encoding) with
  | some decryptedText => .ok (ab2str decryptedText encoding)
  | none => .error .operationError

end CryptoJs

namespace SE

-- ------------ Concrete instantiations used by witnesses ------------

/-- The identity block permutation: a legitimate instantiation of the
abstract AES block-cipher parameter (it is length-preserving, byte-valued
and self-inverse on 16-byte blocks). -/
def idCipher : Bytes → Bytes → Bytes := fun _ b => b

/-- A concrete PBKDF2 instantiation whose output is the salt padded with
zeros to the requested length (so the output visibly depends on the salt
and has the requested length). -/
def saltPrefixKdf : String → Bytes → Bytes → Nat → Nat → Bytes :=
  fun _ _ s _ len => (s ++ List.replicate len 0).take len

/-- Options supplying an explicit main salt and leaving everything else at
its default. -/
def saltOnlyOptions : GenOptions := { salt := some (.inr [3]) }

/-- The key object `genSecretKey saltPrefixKdf none saltOnlyOptions [] [5]`
returns. -/
def kmWit : KeyObject :=
  ⟨3 :: List.replicate 31 0, List.replicate 16 0, 5 :: List.replicate 31 0⟩

-- ------------ Lemmas about the hex codec ------------

theorem hexVal_hexDigitChar (n : Nat) (h : n < 16) :
    hexVal (hexDigitChar n) = some n := by
  unfold hexVal hexDigitChar
  by_cases h10 : n < 10
  · rw [if_pos h10, if_pos (by omega)]
    simp
  · rw [if_neg h10, if_neg (by omega), if_pos (by omega)]
    simp only [Option.some.injEq]
    omega

theorem hexDigitChar_inj {a b : Nat} (h : hexDigitChar a = hexDigitChar b) :
    a = b := by
  unfold hexDigitChar at h
  split at h <;> split at h <;> omega

theorem hexEncode_nil : hexEncode [] = [] := rfl

theorem hexEncode_cons (b : Nat) (bs : Bytes) :
    hexEncode (b :: bs) =
      hexDigitChar (b / 16) :: hexDigitChar (b % 16) :: hexEncode bs := by
  simp [hexEncode]

theorem hexDecode_hexEncode (bs : Bytes) (h : ByteWF bs) :
    hexDecode (hexEncode bs) = bs := by
  induction bs with
  | nil => rfl
  | cons b rest ih =>
    have hb : b < 256 := h b (List.mem_cons_self ..)
    have hrest : ByteWF rest := fun x hx => h x (List.mem_cons_of_mem _ hx)
    have h1 : b / 16 < 16 := by omega
    have h2 : b % 16 < 16 := by omega
    rw [hexEncode_cons]
    simp only [hexDecode, hexVal_hexDigitChar _ h1, hexVal_hexDigitChar _ h2]
    rw [ih hrest]
    congr 1
    omega

theorem hexDecode_hexEncode_append_invalid (bs : Bytes) (h : ByteWF bs)
    (c : Nat) (hc : hexVal c = none) (rest : Str) :
    hexDecode (hexEncode bs ++ (c :: rest)) = bs := by
  induction bs with
  | nil =>
    rw [hexEncode_nil, List.nil_append]
    cases rest with
    | nil => rfl
    | cons d ds => simp [hexDecode, hc]
  | cons b bsrest ih =>
    have hb : b < 256 := h b (List.mem_cons_self ..)
    have hrest : ByteWF bsrest := fun x hx => h x (List.mem_cons_of_mem _ hx)
    have h1 : b / 16 < 16 := by omega
    have h2 : b % 16 < 16 := by omega
    rw [hexEncode_cons, List.cons_append, List.cons_append]
    simp only [hexDecode, hexVal_hexDigitChar _ h1, hexVal_hexDigitChar _ h2]
    rw [ih hrest]
    congr 1
    omega

theorem hexEncode_inj {a b : Bytes} (h : hexEncode a = hexEncode b) : a = b := by
  induction a generalizing b with
  | nil => cases b with
    | nil => rfl
    | cons y ys => rw [hexEncode_nil, hexEncode_cons] at h; exact absurd h (by simp)
  | cons x xs ih =>
    cases b with
    | nil => rw [hexEncode_nil, hexEncode_cons] at h; exact absurd h (by simp)
    | cons y ys =>
      rw [hexEncode_cons, hexEncode_cons] at h
      simp only [List.cons.injEq] at h
      obtain ⟨h1, h2, h3⟩ := h
      have e1 := hexDigitChar_inj h1
      have e2 := hexDigitChar_inj h2
      have hx : x = y := by omega
      exact hx ▸ congrArg (x :: ·) (ih h3)

-- ------------ Lemmas about the UTF-8 codec ------------

theorem utf8Decode_encodeChar (c : Nat) (h : ValidScalar c) (bs : Bytes) :
    utf8Decode (utf8EncodeChar c ++ bs) = c :: utf8Decode bs := by
  unfold ValidScalar at h
  rcases Nat.lt_or_ge c 0x80 with h1 | h1
  · have henc : utf8EncodeChar c = [c] := by
      unfold utf8EncodeChar; rw [if_pos h1]
    rw [henc, List.cons_append, List.nil_append, utf8Decode.eq_def]
    dsimp only
    rw [if_pos h1]
  · rcases Nat.lt_or_ge c 0x800 with h2 | h2
    · have henc : utf8EncodeChar c = [0xC0 + c / 64, 0x80 + c % 64] := by
        unfold utf8EncodeChar; rw [if_neg (by omega), if_pos h2]
      rw [henc]
      simp only [List.cons_append, List.nil_append]
      rw [utf8Decode.eq_def]
      dsimp only
      rw [if_neg (by omega), if_neg (by omega), if_pos (by omega),
        if_pos (by omega)]
      have hv : (0xC0 + c / 64 - 0xC0) * 64 + (0x80 + c % 64 - 0x80) = c := by omega
      rw [hv]
    · rcases Nat.lt_or_ge c 0x10000 with h3 | h3
      · have henc : utf8EncodeChar c =
            [0xE0 + c / 4096, 0x80 + c / 64 % 64, 0x80 + c % 64] := by
          unfold utf8EncodeChar
          rw [if_neg (by omega), if_neg (by omega), if_neg (by omega), if_pos h3]
        rw [henc]
        simp only [List.cons_append, List.nil_append]
        rw [utf8Decode.eq_def]
        dsimp only
        rw [if_neg (by omega), if_neg (by omega), if_neg (by omega),
          if_pos (by omega),
          if_pos (by unfold cont3lo cont3hi; split <;> split <;> omega),
          if_pos (by omega)]
        have hv : (0xE0 + c / 4096 - 0xE0) * 4096 + (0x80 + c / 64 % 64 - 0x80) * 64
            + (0x80 + c % 64 - 0x80) = c := by omega
        rw [hv]
      · have henc : utf8EncodeChar c =
            [0xF0 + c / 262144, 0x80 + c / 4096 % 64, 0x80 + c / 64 % 64,
             0x80 + c % 64] := by
          unfold utf8EncodeChar
          rw [if_neg (by omega), if_neg (by omega), if_neg (by omega),
            if_neg (by omega)]
        rw [henc]
        simp only [List.cons_append, List.nil_append]
        rw [utf8Decode.eq_def]
        dsimp only
        rw [if_neg (by omega), if_neg (by omega), if_neg (by omega),
          if_neg (by omega), if_pos (by omega),
          if_pos (by unfold cont4lo cont4hi; split <;> split <;> omega),
          if_pos (by omega), if_pos (by omega)]
        have hv : (0xF0 + c / 262144 - 0xF0) * 262144 + (0x80 + c / 4096 % 64 - 0x80) * 4096
            + (0x80 + c / 64 % 64 - 0x80) * 64 + (0x80 + c % 64 - 0x80) = c := by omega
        rw [hv]

theorem utf8Decode_utf8Encode (s : Str) (h : ValidStr s) :
    utf8Decode (utf8Encode s) = s := by
  induction s with
  | nil => rfl
  | cons c cs ih =>
    have hc : ValidScalar c := h c (List.mem_cons_self ..)
    have hcs : ValidStr cs := fun x hx => h x (List.mem_cons_of_mem _ hx)
    rw [utf8Encode, List.flatMap_cons, ← utf8Encode,
      utf8Decode_encodeChar c hc, ih hcs]

/-- UTF-8 encoding produces bytes. -/
theorem utf8EncodeChar_WF (c : Nat) (h : ValidScalar c) :
    ByteWF (utf8EncodeChar c) := by
  unfold ValidScalar at h
  intro b hb
  unfold utf8EncodeChar at hb
  split at hb
  · simp only [List.mem_singleton] at hb; omega
  · split at hb
    · simp only [List.mem_cons, List.not_mem_nil, or_false] at hb
      rcases hb with rfl | rfl <;> omega
    · split at hb
      · simp only [List.mem_cons, List.not_mem_nil, or_false] at hb
        rcases hb with rfl | rfl | rfl <;> omega
      · split at hb
        · simp only [List.mem_cons, List.not_mem_nil, or_false] at hb
          rcases hb with rfl | rfl | rfl <;> omega
        · simp only [List.mem_cons, List.not_mem_nil, or_false] at hb
          rcases hb with rfl | rfl | rfl | rfl <;> omega

theorem utf8Encode_WF (s : Str) (h : ValidStr s) : ByteWF (utf8Encode s) := by
  intro b hb
  unfold utf8Encode at hb
  rw [List.mem_flatMap] at hb
  obtain ⟨c, hc, hbc⟩ := hb
  exact utf8EncodeChar_WF c (h c hc) b hbc

-- ------------ Lemmas about XOR on byte sequences ------------

theorem xorBytes_length (a b : Bytes) :
    (xorBytes a b).length = min a.length b.length := by
  simp [xorBytes]

theorem xorBytes_cancel (a b : Bytes) (h : a.length = b.length) :
    xorBytes (xorBytes a b) b = a := by
  induction a generalizing b with
  | nil => cases b <;> rfl
  | cons x xs ih =>
    cases b with
    | nil => simp at h
    | cons y ys =>
      simp only [List.length_cons, Nat.add_right_cancel_iff] at h
      simp only [xorBytes, List.zipWith_cons_cons]
      rw [← xorBytes, ← xorBytes, ih ys h]
      congr 1
      rw [Nat.xor_assoc, Nat.xor_self, Nat.xor_zero]

theorem xorBytes_WF : ∀ a b : Bytes, ByteWF a → ByteWF b → ByteWF (xorBytes a b)
  | [], b, _, _ => by intro x hx; simp [xorBytes] at hx
  | x :: xs, [], _, _ => by intro z hz; simp [xorBytes] at hz
  | x :: xs, y :: ys, ha, hb => by
    intro z hz
    simp only [xorBytes, List.zipWith_cons_cons, List.mem_cons] at hz
    rcases hz with rfl | hz
    · have hx : x < 256 := ha x (List.mem_cons_self ..)
      have hy : y < 256 := hb y (List.mem_cons_self ..)
      have h2 : x ^^^ y < 2 ^ 8 := Nat.xor_lt_two_pow (by omega) (by omega)
      omega
    · exact xorBytes_WF xs ys (fun u hu => ha u (List.mem_cons_of_mem _ hu))
        (fun u hu => hb u (List.mem_cons_of_mem _ hu)) z hz

-- ------------ Lemmas about PKCS#7 padding ------------

theorem pkcs7pad_length (bs : Bytes) :
    (pkcs7pad bs).length = bs.length + (16 - bs.length % 16) := by
  simp [pkcs7pad]

theorem pkcs7pad_length_mod (bs : Bytes) : (pkcs7pad bs).length % 16 = 0 := by
  rw [pkcs7pad_length]
  omega

theorem pkcs7pad_length_pos (bs : Bytes) : 0 < (pkcs7pad bs).length := by
  rw [pkcs7pad_length]
  omega

theorem pkcs7pad_WF (bs : Bytes) (h : ByteWF bs) : ByteWF (pkcs7pad bs) := by
  intro b hb
  unfold pkcs7pad at hb
  rw [List.mem_append] at hb
  rcases hb with hb | hb
  · exact h b hb
  · rw [List.mem_replicate] at hb
    omega

theorem pkcs7unpad_pkcs7pad (bs : Bytes) : pkcs7unpad (pkcs7pad bs) = some bs := by
  obtain ⟨k, hk⟩ : ∃ k, 16 - bs.length % 16 = k + 1 :=
    ⟨16 - bs.length % 16 - 1, by omega⟩
  have hk16 : k + 1 ≤ 16 := by omega
  unfold pkcs7pad pkcs7unpad
  rw [hk]
  have hlast : (bs ++ List.replicate (k + 1) (k + 1)).getLast? = some (k + 1) := by
    rw [List.replicate_succ', ← List.append_assoc, List.getLast?_concat]
  rw [hlast]
  dsimp only
  have hL : (bs ++ List.replicate (k + 1) (k + 1)).length = bs.length + (k + 1) := by
    simp
  rw [hL]
  have harith : bs.length + (k + 1) - (k + 1) = bs.length := by omega
  rw [harith]
  have hdrop : (bs ++ List.replicate (k + 1) (k + 1)).drop bs.length =
      List.replicate (k + 1) (k + 1) := List.drop_left ..
  have htake : (bs ++ List.replicate (k + 1) (k + 1)).take bs.length = bs :=
    List.take_left ..
  rw [if_pos, htake]
  refine ⟨by omega, by omega, by omega, ?_⟩
  rw [hdrop]
  simp [List.all_eq_true, List.mem_replicate]

-- ------------ Lemmas about CBC chaining ------------

theorem cbcEncN_length (encB : Bytes → Bytes)
    (hlen : ∀ b, b.length = 16 → (encB b).length = 16) :
    ∀ n (prev msg : Bytes), prev.length = 16 → msg.length = 16 * n →
      (cbcEncN encB n prev msg).length = 16 * n := by
  intro n
  induction n with
  | zero => intro prev msg _ _; rfl
  | succ n ih =>
    intro prev msg hprev hmsg
    have hxlen : (xorBytes (msg.take 16) prev).length = 16 := by
      rw [xorBytes_length, List.length_take, hprev]
      omega
    rw [cbcEncN, List.length_append, hlen _ hxlen,
      ih _ (msg.drop 16) (hlen _ hxlen) (by rw [List.length_drop]; omega)]
    omega

theorem cbcEncN_WF (encB : Bytes → Bytes)
    (hlen : ∀ b, b.length = 16 → (encB b).length = 16)
    (hWF : ∀ b, b.length = 16 → ByteWF b → ByteWF (encB b)) :
    ∀ n (prev msg : Bytes), prev.length = 16 → msg.length = 16 * n →
      ByteWF prev → ByteWF msg → ByteWF (cbcEncN encB n prev msg) := by
  intro n
  induction n with
  | zero => intro prev msg _ _ _ _ x hx; simp [cbcEncN] at hx
  | succ n ih =>
    intro prev msg hprev hmsg hprevWF hmsgWF
    have htakeWF : ByteWF (msg.take 16) := fun x hx => hmsgWF x (List.mem_of_mem_take hx)
    have hdropWF : ByteWF (msg.drop 16) := fun x hx => hmsgWF x (List.mem_of_mem_drop hx)
    have hxlen : (xorBytes (msg.take 16) prev).length = 16 := by
      rw [xorBytes_length, List.length_take, hprev]
      omega
    have hxWF : ByteWF (xorBytes (msg.take 16) prev) :=
      xorBytes_WF _ _ htakeWF hprevWF
    intro x hx
    rw [cbcEncN, List.mem_append] at hx
    rcases hx with hx | hx
    · exact hWF _ hxlen hxWF x hx
    · exact ih _ (msg.drop 16) (hlen _ hxlen) (by rw [List.length_drop]; omega)
        (hWF _ hxlen hxWF) hdropWF x hx

theorem cbcDecN_cbcEncN (encB decB : Bytes → Bytes)
    (hinv : ∀ b, b.length = 16 → decB (encB b) = b)
    (hlen : ∀ b, b.length = 16 → (encB b).length = 16) :
    ∀ n (prev msg : Bytes), prev.length = 16 → msg.length = 16 * n →
      cbcDecN decB n prev (cbcEncN encB n prev msg) = msg := by
  intro n
  induction n with
  | zero =>
    intro prev msg _ hmsg
    exact (List.eq_nil_of_length_eq_zero (by omega)).symm
  | succ n ih =>
    intro prev msg hprev hmsg
    have hxlen : (xorBytes (msg.take 16) prev).length = 16 := by
      rw [xorBytes_length, List.length_take, hprev]
      omega
    have hclen : (encB (xorBytes (msg.take 16) prev)).length = 16 := hlen _ hxlen
    rw [cbcEncN, cbcDecN]
    have h1 : (encB (xorBytes (msg.take 16) prev) ++
        cbcEncN encB n (encB (xorBytes (msg.take 16) prev)) (msg.drop 16)).take 16
        = encB (xorBytes (msg.take 16) prev) := List.take_left' hclen
    have h2 : (encB (xorBytes (msg.take 16) prev) ++
        cbcEncN encB n (encB (xorBytes (msg.take 16) prev)) (msg.drop 16)).drop 16
        = cbcEncN encB n (encB (xorBytes (msg.take 16) prev)) (msg.drop 16) :=
      List.drop_left' hclen
    rw [h1, h2, hinv _ hxlen,
      xorBytes_cancel _ _ (by rw [List.length_take, hprev]; omega),
      ih _ (msg.drop 16) hclen (by rw [List.length_drop]; omega)]
    exact List.take_append_drop 16 msg

-- ------------ Round trip of crypto.subtle AES-CBC ------------

theorem aesCbc_roundtrip (encB decB : Bytes → Bytes → Bytes) (key iv data : Bytes)
    (hiv : iv.length = 16)
    (hinv : ∀ b, b.length = 16 → decB key (encB key b) = b)
    (hlen : ∀ b, b.length = 16 → (encB key b).length = 16) :
    aesCbcDecrypt decB key iv (aesCbcEncrypt encB key iv data) = some data := by
  obtain ⟨n, hn⟩ : ∃ n, (pkcs7pad data).length = 16 * n :=
    ⟨(pkcs7pad data).length / 16, by
      have := pkcs7pad_length_mod data
      omega⟩
  have hdiv : (pkcs7pad data).length / 16 = n := by omega
  unfold aesCbcEncrypt
  rw [hdiv]
  have hct : (cbcEncN (encB key) n iv (pkcs7pad data)).length = 16 * n :=
    cbcEncN_length (encB key) hlen n iv _ hiv hn
  have hpos : 0 < 16 * n := by
    have := pkcs7pad_length_pos data
    omega
  unfold aesCbcDecrypt
  rw [if_pos (by rw [hct]; omega), hct]
  have hdiv2 : 16 * n / 16 = n := by omega
  rw [hdiv2, cbcDecN_cbcEncN (encB key) (decB key) hinv hlen n iv (pkcs7pad data) hiv hn,
    pkcs7unpad_pkcs7pad]

theorem aesCbcEncrypt_WF (encB : Bytes → Bytes → Bytes) (key iv data : Bytes)
    (hiv : iv.length = 16) (hivWF : ByteWF iv) (hdataWF : ByteWF data)
    (hlen : ∀ b, b.length = 16 → (encB key b).length = 16)
    (hWF : ∀ b, b.length = 16 → ByteWF b → ByteWF (encB key b)) :
    ByteWF (aesCbcEncrypt encB key iv data) := by
  unfold aesCbcEncrypt
  exact cbcEncN_WF (encB key) hlen hWF _ iv _ hiv
    (by have := pkcs7pad_length_mod data; omega) hivWF (pkcs7pad_WF data hdataWF)

-- ------------ Lemmas about the index table object ------------

theorem tableAppend_cons_ne (e : Str × List Str) (t : IndexTable) (key p : Str)
    (h : e.1 ≠ key) : tableAppend (e :: t) key p = e :: tableAppend t key p := by
  unfold tableAppend
  by_cases hany : ∃ x ∈ t, x.1 = key
  · obtain ⟨x, hx, hx1⟩ := hany
    rw [if_pos ⟨x, List.mem_cons_of_mem _ hx, hx1⟩, if_pos ⟨x, hx, hx1⟩,
      List.map_cons, if_neg h]
  · rw [if_neg, if_neg hany, List.cons_append]
    rintro ⟨x, hx, hx1⟩
    rcases List.mem_cons.mp hx with rfl | hx'
    · exact h hx1
    · exact hany ⟨x, hx', hx1⟩

theorem tableAppend_cons_eq (e : Str × List Str) (t : IndexTable) (key p : Str)
    (h : e.1 = key) :
    tableAppend (e :: t) key p
      = (e.1, e.2 ++ [p]) :: t.map (fun x => if x.1 = key then (x.1, x.2 ++ [p]) else x) := by
  unfold tableAppend
  rw [if_pos ⟨e, List.mem_cons_self .., h⟩, List.map_cons, if_pos h]

theorem lookupTable_map_mod (t : IndexTable) (key key' p : Str) (h : key' ≠ key) :
    lookupTable (t.map (fun e => if e.1 = key then (e.1, e.2 ++ [p]) else e)) key'
      = lookupTable t key' := by
  induction t with
  | nil => rfl
  | cons e t ih =>
    rw [List.map_cons]
    by_cases hek : e.1 = key
    · rw [if_pos hek]
      have hne : e.1 ≠ key' := by rw [hek]; exact Ne.symm h
      unfold lookupTable
      rw [if_neg hne, if_neg hne]
      exact ih
    · rw [if_neg hek]
      unfold lookupTable
      by_cases hek' : e.1 = key'
      · rw [if_pos hek', if_pos hek']
      · rw [if_neg hek', if_neg hek']
        exact ih

theorem lookupTable_tableAppend_self :
    ∀ (t : IndexTable) (key p : Str),
      lookupTable (tableAppend t key p) key
        = some ((lookupTable t key).getD [] ++ [p])
  | [], key, p => by
    unfold tableAppend
    rw [if_neg (by simp), List.nil_append]
    unfold lookupTable
    rw [if_pos rfl]
    rfl
  | e :: t, key, p => by
    by_cases h : e.1 = key
    · rw [tableAppend_cons_eq e t key p h]
      unfold lookupTable
      rw [if_pos h, if_pos h]
      rfl
    · rw [tableAppend_cons_ne e t key p h]
      unfold lookupTable
      rw [if_neg h, if_neg h]
      exact lookupTable_tableAppend_self t key p

theorem tableAppend_nil (key p : Str) : tableAppend [] key p = [(key, [p])] := by
  unfold tableAppend
  rw [if_neg (by simp), List.nil_append]

theorem lookupTable_tableAppend_other :
    ∀ (t : IndexTable) (key p key' : Str), key' ≠ key →
      lookupTable (tableAppend t key p) key' = lookupTable t key'
  | [], key, p, key', h => by
    unfold tableAppend
    rw [if_neg (by simp), List.nil_append]
    unfold lookupTable
    rw [if_neg (fun hh => h hh.symm)]
    rfl
  | e :: t, key, p, key', h => by
    by_cases he : e.1 = key
    · rw [tableAppend_cons_eq e t key p he]
      have hne : e.1 ≠ key' := by rw [he]; exact Ne.symm h
      unfold lookupTable
      rw [if_neg hne, if_neg hne]
      exact lookupTable_map_mod t key key' p h
    · rw [tableAppend_cons_ne e t key p he]
      unfold lookupTable
      by_cases he' : e.1 = key'
      · rw [if_pos he', if_pos he']
      · rw [if_neg he', if_neg he']
        exact lookupTable_tableAppend_other t key p key' h

-- ------------ Claims ------------

/--
C3 (amended): for every string `m` of Unicode scalar values and every key
object whose `iv` is a 16-byte buffer, under any block cipher that is a
length-preserving byte-valued permutation of 16-byte blocks (with `decB`
inverting `encB` under `k.key`), `decrypt(encrypt(m, k), k) == m` holds
with the default `'hex'` ciphertext encoding. (The original claim extended
this to every supported encoding; that part is refuted by the accompanying
counterexample at the `'ascii'` encoding.)
-/
theorem encrypt_decrypt_roundtrip_hex (encB decB : Bytes → Bytes → Bytes)
    (m : Str) (k : KeyObject)
    (hm : ValidStr m) (hiv : k.iv.length = 16) (hivWF : ByteWF k.iv)
    (hinv : ∀ b, b.length = 16 → decB k.key (encB k.key b) = b)
    (hlen : ∀ b, b.length = 16 → (encB k.key b).length = 16)
    (hWF : ∀ b, b.length = 16 → ByteWF b → ByteWF (encB k.key b)) :
    decrypt decB (encrypt encB m k none) k none = .ok m := by
  have hctWF : ByteWF (aesCbcEncrypt encB k.key k.iv (utf8Encode m)) :=
    aesCbcEncrypt_WF encB k.key k.iv (utf8Encode m) hiv hivWF
      (utf8Encode_WF m hm) hlen hWF
  have hd : str2ab (encrypt encB m k none) none
      = aesCbcEncrypt encB k.key k.iv (utf8Encode m) :=
    hexDecode_hexEncode _ hctWF
  unfold decrypt
  rw [hd, aesCbc_roundtrip encB decB k.key k.iv (utf8Encode m) hiv hinv hlen]
  show Except.ok (utf8Decode (utf8Encode m)) = Except.ok m
  rw [utf8Decode_utf8Encode m hm]

/-- Witness for `encrypt_decrypt_roundtrip_hex` at the identity cipher,
the plaintext `"A"` and an all-zero 16-byte iv. -/
theorem encrypt_decrypt_roundtrip_hex_witness :
    decrypt idCipher (encrypt idCipher (strLit "A") ⟨[], List.replicate 16 0, []⟩ none)
      ⟨[], List.replicate 16 0, []⟩ none = .ok (strLit "A") :=
  encrypt_decrypt_roundtrip_hex idCipher idCipher (strLit "A")
    ⟨[], List.replicate 16 0, []⟩ (by decide) (by decide) (by decide)
    (fun b _ => rfl) (fun b hb => hb) (fun b _ h => h)

/--
C3 (counterexample): the round trip does NOT hold for every supported
encoding. With the identity block cipher (valid for the round-trip
hypotheses), a 16-byte iv whose first byte is `0x80` and the one-character
plaintext `"A"`, encrypting and decrypting with the `'ascii'` encoding
yields the replacement character U+FFFD instead of `"A"`: Node's `'ascii'`
decoding strips the high bit of every ciphertext byte, so the ciphertext
does not survive the text round trip. The final conjunct checks the claim's
validity assumptions hold at this instance.
-/
theorem encrypt_decrypt_not_id_ascii :
    (∀ b : Bytes, b.length = 16 →
        idCipher ([] : Bytes) (idCipher ([] : Bytes) b) = b)
    ∧ ValidStr (strLit "A")
    ∧ (128 :: List.replicate 15 0 : Bytes).length = 16
    ∧ (decrypt idCipher
        (encrypt idCipher (strLit "A") ⟨[], 128 :: List.replicate 15 0, []⟩ (some .ascii))
        ⟨[], 128 :: List.replicate 15 0, []⟩ (some .ascii)).toOption
      ≠ some (strLit "A") :=
  ⟨fun _ _ => rfl, by decide, by decide, by decide⟩

/--
C1: `trapdoor(query, k)` returns exactly
`digest(query, {salt: k.secretSalt})`, and the trapdoor depends on the key
material only through `secretSalt` — so the trapdoor computed for a shared
keyword is identical under the same `secretSalt`, regardless of which
document it came from.
-/
theorem trapdoor_eq_digest (H : String → Bytes → Bytes) (query : StrOrBytes)
    (k : KeyObject) :
    trapdoor H query k = digest H query { salt := some (.inr k.secretSalt) }
    ∧ ∀ k' : KeyObject, k'.secretSalt = k.secretSalt →
        trapdoor H query k' = trapdoor H query k := by
  refine ⟨rfl, fun k' h => ?_⟩
  unfold trapdoor
  rw [h]

/-- Witness for `trapdoor_eq_digest`: two key objects differing everywhere
except in `secretSalt` yield the same trapdoor for the query `"w"`. -/
theorem trapdoor_eq_digest_witness :
    trapdoor (fun _ b => b) (.inl (strLit "w")) ⟨[], [], [7]⟩
      = digest (fun _ b => b) (.inl (strLit "w")) { salt := some (.inr [7]) }
    ∧ trapdoor (fun _ b => b) (.inl (strLit "w")) ⟨[1], [2], [7]⟩
      = trapdoor (fun _ b => b) (.inl (strLit "w")) ⟨[], [], [7]⟩ :=
  ⟨(trapdoor_eq_digest (fun _ b => b) (.inl (strLit "w")) ⟨[], [], [7]⟩).1,
   (trapdoor_eq_digest (fun _ b => b) (.inl (strLit "w")) ⟨[], [], [7]⟩).2
     ⟨[1], [2], [7]⟩ rfl⟩

/--
C2: on `[{p1, "a b"}, {p2, "b c"}]` with no `getKeywords` supplied, when the
three keyword trapdoors are pairwise distinct (as they are for a collision-free
hash such as SHA-256), `buildIndex` returns the table with exactly the three
trapdoor keys of `"a"`, `"b"`, `"c"`, where `"b"` maps to `[p1, p2]` in that
order, `"a"` to `[p1]` and `"c"` to `[p2]`; and in general `tableAppend`
appends the pointer to the list at the given trapdoor key (creating the list
on first occurrence) and leaves every other key's list unchanged.
-/
theorem buildIndex_two_docs (H : String → Bytes → Bytes) (k : KeyObject)
    (p1 p2 : Str)
    (hab : trapdoor H (.inl (strLit "a")) k ≠ trapdoor H (.inl (strLit "b")) k)
    (hac : trapdoor H (.inl (strLit "a")) k ≠ trapdoor H (.inl (strLit "c")) k)
    (hbc : trapdoor H (.inl (strLit "b")) k ≠ trapdoor H (.inl (strLit "c")) k) :
    buildIndex H [⟨p1, .str (strLit "a b")⟩, ⟨p2, .str (strLit "b c")⟩] k none
      = .ok [(trapdoor H (.inl (strLit "a")) k, [p1]),
             (trapdoor H (.inl (strLit "b")) k, [p1, p2]),
             (trapdoor H (.inl (strLit "c")) k, [p2])]
    ∧ ∀ (t : IndexTable) (key p : Str),
        lookupTable (tableAppend t key p) key
          = some ((lookupTable t key).getD [] ++ [p])
        ∧ ∀ key', key' ≠ key →
            lookupTable (tableAppend t key p) key' = lookupTable t key' := by
  constructor
  · have hfull : buildIndex H
        [⟨p1, .str (strLit "a b")⟩, ⟨p2, .str (strLit "b c")⟩] k none
        = .ok (tableAppend (tableAppend (tableAppend (tableAppend []
            (trapdoor H (.inl (strLit "a")) k) p1)
            (trapdoor H (.inl (strLit "b")) k) p1)
            (trapdoor H (.inl (strLit "b")) k) p2)
            (trapdoor H (.inl (strLit "c")) k) p2) := rfl
    rw [hfull]
    set tA := trapdoor H (.inl (strLit "a")) k with htA
    set tB := trapdoor H (.inl (strLit "b")) k with htB
    set tC := trapdoor H (.inl (strLit "c")) k with htC
    have e1 : tableAppend [] tA p1 = [(tA, [p1])] := tableAppend_nil tA p1
    have e2 : tableAppend [(tA, [p1])] tB p1 = [(tA, [p1]), (tB, [p1])] := by
      rw [tableAppend_cons_ne (tA, [p1]) [] tB p1 hab, tableAppend_nil]
    have e3 : tableAppend [(tA, [p1]), (tB, [p1])] tB p2
        = [(tA, [p1]), (tB, [p1, p2])] := by
      rw [tableAppend_cons_ne (tA, [p1]) _ tB p2 hab,
        tableAppend_cons_eq (tB, [p1]) [] tB p2 rfl]
      rfl
    have e4 : tableAppend [(tA, [p1]), (tB, [p1, p2])] tC p2
        = [(tA, [p1]), (tB, [p1, p2]), (tC, [p2])] := by
      rw [tableAppend_cons_ne (tA, [p1]) _ tC p2 hac,
        tableAppend_cons_ne (tB, [p1, p2]) _ tC p2 hbc, tableAppend_nil]
    rw [e1, e2, e3, e4]
  · exact fun t key p =>
      ⟨lookupTable_tableAppend_self t key p,
       fun key' h => lookupTable_tableAppend_other t key p key' h⟩

/-- Witness for `buildIndex_two_docs` at an injective hash (the identity on
the hashed bytes) and `secretSalt = [1]`; the three trapdoors are pairwise
distinct there. -/
theorem buildIndex_two_docs_witness :
    buildIndex (fun _ b => b)
      [⟨strLit "p1", .str (strLit "a b")⟩, ⟨strLit "p2", .str (strLit "b c")⟩]
      ⟨[], [], [1]⟩ none
      = .ok [(trapdoor (fun _ b => b) (.inl (strLit "a")) ⟨[], [], [1]⟩, [strLit "p1"]),
             (trapdoor (fun _ b => b) (.inl (strLit "b")) ⟨[], [], [1]⟩,
               [strLit "p1", strLit "p2"]),
             (trapdoor (fun _ b => b) (.inl (strLit "c")) ⟨[], [], [1]⟩, [strLit "p2"])] :=
  (buildIndex_two_docs (fun _ b => b) ⟨[], [], [1]⟩ (strLit "p1") (strLit "p2")
    (by decide) (by decide) (by decide)).1

/--
C7: a non-empty document collection whose first document's data is not a
string, together with no `getKeywords` function, makes `buildIndex` fail with
the `TypeError` thrown when the missing extractor is invoked (the spec's
MissingKeywordExtractor), returning no index at all.
-/
theorem buildIndex_missing_extractor (H : String → Bytes → Bytes)
    (k : KeyObject) (d : Document) (ds : List Document)
    (h : ∀ s, d.data ≠ .str s) :
    buildIndex H (d :: ds) k none = .error .typeError := by
  rcases d with ⟨p, dd⟩
  cases dd with
  | str s => exact absurd rfl (h s)
  | buf b => rfl

/-- Witness for `buildIndex_missing_extractor` on a one-document collection
holding a byte buffer. -/
theorem buildIndex_missing_extractor_witness :
    buildIndex (fun _ b => b) [⟨strLit "p", .buf [1, 2]⟩] ⟨[], [], []⟩ none
      = .error .typeError :=
  buildIndex_missing_extractor (fun _ b => b) ⟨[], [], []⟩
    ⟨strLit "p", .buf [1, 2]⟩ [] (fun _ h => DocData.noConfusion h)

/--
C8: `digest` hashes the concatenation data-bytes-then-salt-bytes in that
fixed order, converting text to bytes via UTF-8, with defaults
`hash = "SHA-256"`, `salt = "DEFAULT-SALT"` and hex output; consequently
whenever the hash separates the two concatenation orders (as a collision-free
hash does on `d = "ab"`, `s = "c"`), `digest(d, {salt: s}) ≠ digest(s, {salt: d})`.
-/
theorem digest_data_salt_order (H : String → Bytes → Bytes) (d : StrOrBytes)
    (opts : DigestOptions) :
    digest H d opts
      = ab2str (H (opts.hash.getD "SHA-256")
          (abConcat (toBuffer d)
            (toBuffer (opts.salt.getD (.inl (strLit "DEFAULT-SALT")))))) none
    ∧ ∀ a s : StrOrBytes,
        H "SHA-256" (abConcat (toBuffer a) (toBuffer s))
          ≠ H "SHA-256" (abConcat (toBuffer s) (toBuffer a)) →
        digest H a { salt := some s } ≠ digest H s { salt := some a } := by
  refine ⟨rfl, fun a s hne hcontra => hne ?_⟩
  exact hexEncode_inj hcontra

/-- Witness for `digest_data_salt_order` at the identity hash,
`d = "ab"`, `s = "c"`: the two digests differ because the concatenated
inputs `"abc"` and `"cab"` differ. -/
theorem digest_data_salt_order_witness :
    digest (fun _ b => b) (.inl (strLit "ab")) { salt := some (.inl (strLit "c")) }
      ≠ digest (fun _ b => b) (.inl (strLit "c")) { salt := some (.inl (strLit "ab")) } :=
  (digest_data_salt_order (fun _ b => b) (.inl (strLit "ab")) {}).2
    (.inl (strLit "ab")) (.inl (strLit "c")) (by decide)

/--
C4 (amended): with the passphrase, all option fields and the main salt held
fixed (salt supplied explicitly), `genSecretKey`'s output does not depend on
the randomness drawn for the main salt default, and its cipher key and iv are
byte-for-byte reproducible; but the secretSalt-derivation salt is drawn fresh
from `crypto.getRandomValues` on every call and the options bag offers no way
to supply it, so the full output is reproducible only if that ambient draw
(`r2`) happens to repeat. (The original claim — that the caller can fix the
secretSalt-derivation salt — is refuted by the accompanying counterexample.)
-/
theorem genSecretKey_reproducible (P : String → Bytes → Bytes → Nat → Nat → Bytes)
    (sec : Option Str) (o : GenOptions) (r1 r1' r2 r2' : Bytes)
    (hsalt : o.salt.isSome) :
    genSecretKey P sec o r1 r2 = genSecretKey P sec o r1' r2
    ∧ (genSecretKey P sec o r1 r2).toOption.map (fun km => (km.key, km.iv))
      = (genSecretKey P sec o r1 r2').toOption.map (fun km => (km.key, km.iv)) := by
  obtain ⟨s, hs⟩ := Option.isSome_iff_exists.mp hsalt
  constructor
  · unfold genSecretKey
    rw [hs]
    simp only [Option.getD_some]
  · unfold genSecretKey
    rw [hs]
    simp only [Option.getD_some]
    split_ifs <;> rfl

/-- Witness for `genSecretKey_reproducible` at the salt-prefix KDF with an
explicit main salt. -/
theorem genSecretKey_reproducible_witness :
    genSecretKey saltPrefixKdf none saltOnlyOptions [] [5]
      = genSecretKey saltPrefixKdf none saltOnlyOptions [9] [5]
    ∧ (genSecretKey saltPrefixKdf none saltOnlyOptions [] [5]).toOption.map
        (fun km => (km.key, km.iv))
      = (genSecretKey saltPrefixKdf none saltOnlyOptions [] [6]).toOption.map
        (fun km => (km.key, km.iv)) :=
  genSecretKey_reproducible saltPrefixKdf none saltOnlyOptions [] [9] [5] [6] rfl

/--
C4 (counterexample): the entire output of `genSecretKey` is NOT reproducible
by fixing the caller-supplied inputs. With passphrase, options (including an
explicit main salt) and the main-salt randomness all identical, two calls
that differ only in the ambient randomness drawn for the secretSalt
derivation — a draw the options bag cannot fix — return different
secretSalts.
-/
theorem genSecretKey_secretSalt_varies :
    (genSecretKey saltPrefixKdf none saltOnlyOptions [] []).toOption.map
        KeyObject.secretSalt
      ≠ (genSecretKey saltPrefixKdf none saltOnlyOptions [] [1]).toOption.map
        KeyObject.secretSalt := by
  decide

/--
C5: the secretSalt returned by `genSecretKey` is produced by a second run of
the same PBKDF2 stretching: it equals `P hash pw salt2 (iterations / 2) 32`
where `hash` and the passphrase-derived input `pw` are exactly the ones used
by the main derivation (the imported `deriveBitsKey` is reused, the
passphrase is not re-imported), `salt2` is the fresh 512-byte random draw,
the output is exactly 32 bytes (under the PBKDF2 length contract), and with
the default `iterations = 999` the iteration count is `999 / 2` (floored to
`499` by WebCrypto's integer conversion).
-/
theorem genSecretKey_secretSalt_spec (P : String → Bytes → Bytes → Nat → Nat → Bytes)
    (sec : Option Str) (o : GenOptions) (r1 r2 : Bytes) (km : KeyObject)
    (h : genSecretKey P sec o r1 r2 = .ok km) :
    km.secretSalt
      = P (o.hash.getD "SHA-256") (str2ab (sec.getD (strLit "PASSPHRASE")) none)
          (randomBytes512 r2) (o.iterations.getD 999 / 2) 32
    ∧ (randomBytes512 r2).length = 512
    ∧ ((∀ h' pw s it len, (P h' pw s it len).length = len) →
        km.secretSalt.length = 32)
    ∧ (o.iterations = none →
        km.secretSalt
          = P (o.hash.getD "SHA-256") (str2ab (sec.getD (strLit "PASSPHRASE")) none)
              (randomBytes512 r2) 499 32) := by
  simp only [genSecretKey] at h
  split_ifs at h
  simp only [Except.ok.injEq] at h
  subst h
  refine ⟨rfl, ?_, ?_, ?_⟩
  · unfold randomBytes512
    rw [List.length_take, List.length_append, List.length_replicate]
    omega
  · intro hP
    exact hP ..
  · intro hiter
    rw [hiter]
    rfl

/-- Witness for `genSecretKey_secretSalt_spec` at the salt-prefix KDF:
`genSecretKey saltPrefixKdf none saltOnlyOptions [] [5]` returns `kmWit`,
whose secretSalt satisfies all four conclusions. -/
theorem genSecretKey_secretSalt_spec_witness :
    kmWit.secretSalt
      = saltPrefixKdf "SHA-256" (str2ab (strLit "PASSPHRASE") none)
          (randomBytes512 [5]) (999 / 2) 32
    ∧ (randomBytes512 [5]).length = 512
    ∧ kmWit.secretSalt.length = 32
    ∧ kmWit.secretSalt
      = saltPrefixKdf "SHA-256" (str2ab (strLit "PASSPHRASE") none)
          (randomBytes512 [5]) 499 32 := by
  obtain ⟨h1, h2, h3, h4⟩ :=
    genSecretKey_secretSalt_spec saltPrefixKdf none saltOnlyOptions [] [5] kmWit rfl
  refine ⟨h1, h2, h3 ?_, h4 rfl⟩
  intro h' pw s it len
  unfold saltPrefixKdf
  rw [List.length_take]
  simp

/--
C6 (amended): `genSecretKey` performs no minimum check on `keyLengthByte`
and there is no InsufficientKeyLength error. With `keyLengthByte = 32 < 48`
it succeeds, returning a key object whose 32-byte key is the whole derived
output and whose iv is the last 16 bytes of that same output — the iv
overlaps the cipher key instead of an error being raised. A requested length
whose 32-byte prefix is not a valid raw AES key length (such as 8) fails,
but with the `DataError` thrown by `crypto.subtle.importKey`, not with a
key-length validation error.
-/
theorem genSecretKey_short_keyLength (P : String → Bytes → Bytes → Nat → Nat → Bytes)
    (sec : Option Str) (osalt : Option StrOrBytes) (r1 r2 : Bytes)
    (hP : ∀ h' pw s it len, (P h' pw s it len).length = len) :
    (∃ km, genSecretKey P sec ⟨none, osalt, none, some 32⟩ r1 r2 = .ok km
        ∧ km.key.length = 32 ∧ km.iv = km.key.drop 16)
    ∧ genSecretKey P sec ⟨none, osalt, none, some 8⟩ r1 r2 = .error .dataError := by
  constructor
  · unfold genSecretKey
    simp only [Option.getD_some, Option.getD_none]
    rw [if_neg (by omega),
      if_pos (by rw [List.length_take, hP]; omega),
      if_neg (by omega)]
    refine ⟨_, rfl, ?_, ?_⟩
    · rw [List.length_take, hP]
      omega
    · show List.drop _ _ = _
      rw [hP, List.take_of_length_le (by rw [hP])]
  · unfold genSecretKey
    simp only [Option.getD_some, Option.getD_none]
    rw [if_neg (by omega), if_neg (by rw [List.length_take, hP]; omega)]

/-- Witness for `genSecretKey_short_keyLength` at the salt-prefix KDF. -/
theorem genSecretKey_short_keyLength_witness :
    (∃ km, genSecretKey saltPrefixKdf none ⟨none, some (.inr [3]), none, some 32⟩ [] []
        = .ok km ∧ km.key.length = 32 ∧ km.iv = km.key.drop 16)
    ∧ genSecretKey saltPrefixKdf none ⟨none, some (.inr [3]), none, some 8⟩ [] []
      = .error .dataError :=
  genSecretKey_short_keyLength saltPrefixKdf none (some (.inr [3])) [] []
    (fun h' pw s it len => by
      unfold saltPrefixKdf
      rw [List.length_take]
      simp)

/--
C6 (counterexample): `genSecretKey` with `keyLengthByte = 32 < 48` does not
fail at all — it returns key material (and the code contains no
InsufficientKeyLength signal): concretely, the derived key is the 32 derived
bytes, the iv is their last 16 bytes, and the call succeeds.
-/
theorem genSecretKey_keyLength32_succeeds :
    genSecretKey saltPrefixKdf none ⟨none, some (.inr [3]), none, some 32⟩ [] []
      = .ok ⟨3 :: List.replicate 31 0, List.replicate 16 0, List.replicate 32 0⟩ := rfl

/--
C9 (amended): there is no InvalidEncoding failure anywhere in the code:
`str2ab` is total and, following Node's `Buffer.from(string, 'hex')`
semantics, silently truncates its input at the first character that is not
valid hex. Consequently `decrypt` on a hex text extended with undecodable
characters operates on the bytes of the valid prefix — exactly as if the
invalid tail were absent — rather than failing with an encoding error.
-/
theorem str2ab_silent_truncation (bs : Bytes) (h : ByteWF bs) (c : Nat)
    (hc : hexVal c = none) (rest : Str) :
    str2ab (hexEncode bs ++ (c :: rest)) none = bs
    ∧ ∀ (decB : Bytes → Bytes → Bytes) (k : KeyObject),
        decrypt decB (hexEncode bs ++ (c :: rest)) k none
          = decrypt decB (hexEncode bs) k none := by
  have h1 : str2ab (hexEncode bs ++ (c :: rest)) none = bs :=
    hexDecode_hexEncode_append_invalid bs h c hc rest
  have h2 : str2ab (hexEncode bs) none = bs := hexDecode_hexEncode bs h
  refine ⟨h1, fun decB k => ?_⟩
  unfold decrypt
  rw [h1, h2]

/-- Witness for `str2ab_silent_truncation` on the hex rendering of sixteen
`0x10` bytes followed by the invalid text `"zz"`. -/
theorem str2ab_silent_truncation_witness :
    str2ab (hexEncode (List.replicate 16 16) ++ strLit "zz") none
      = List.replicate 16 16
    ∧ decrypt idCipher (hexEncode (List.replicate 16 16) ++ strLit "zz")
        ⟨[], List.replicate 16 0, []⟩ none
      = decrypt idCipher (hexEncode (List.replicate 16 16))
        ⟨[], List.replicate 16 0, []⟩ none := by
  obtain ⟨h1, h2⟩ :=
    str2ab_silent_truncation (List.replicate 16 16) (by decide) 122 (by decide) [122]
  exact ⟨h1, h2 idCipher ⟨[], List.replicate 16 0, []⟩⟩

/--
C9 (counterexample): decrypting a ciphertext string that cannot be decoded
as hex (it ends in `"zz"`) does not fail with any encoding error: the
undecodable tail is silently dropped and the decryption succeeds, returning
`.ok` with the empty plaintext.
-/
theorem decrypt_invalid_hex_no_error :
    decrypt idCipher (hexEncode (List.replicate 16 16) ++ strLit "zz")
      ⟨[], List.replicate 16 0, []⟩ none = .ok [] := rfl

/--
C10 (amended): the `crypto.js` encrypt/decrypt pair and the README
implementation's pair agree exactly when the encoding argument is `'utf-8'`
(then `str2ab(text, encoding)` and `str2ab(text, "utf-8")` coincide, as do
the plaintext renderings); they do not agree at the default/omitted
encoding, where `crypto.js` decodes the plaintext as hex while the README
implementation decodes it as UTF-8 (see the accompanying counterexample).
-/
theorem cryptoJs_agree_utf8 (encB decB : Bytes → Bytes → Bytes)
    (text ct : Str) (k : KeyObject) :
    CryptoJs.encrypt encB text k (some .utf8) = encrypt encB text k (some .utf8)
    ∧ CryptoJs.decrypt decB ct k (some .utf8) = decrypt decB ct k (some .utf8) := by
  refine ⟨rfl, ?_⟩
  unfold CryptoJs.decrypt decrypt
  cases aesCbcDecrypt decB k.key k.iv (str2ab ct (some .utf8)) with
  | none => rfl
  | some pt => rfl

/--
C10 (counterexample): the two pairs are not equivalent at the omitted
(default) encoding. With the identity block cipher and an all-zero key
object, `crypto.js`'s encrypt treats the plaintext `"hello"` as hex text
(Node decodes it to the empty buffer, `'h'` not being a hex digit) while
the README implementation UTF-8-encodes it, so the two ciphertexts differ;
decrypting the same valid ciphertext likewise yields different plaintext
texts (hex rendering versus UTF-8 rendering).
-/
theorem cryptoJs_encrypt_differs_default :
    CryptoJs.encrypt idCipher (strLit "hello") ⟨[], List.replicate 16 0, []⟩ none
      ≠ encrypt idCipher (strLit "hello") ⟨[], List.replicate 16 0, []⟩ none
    ∧ (CryptoJs.decrypt idCipher (hexEncode (pkcs7pad [65]))
        ⟨[], List.replicate 16 0, []⟩ none).toOption
      ≠ (decrypt idCipher (hexEncode (pkcs7pad [65]))
        ⟨[], List.replicate 16 0, []⟩ none).toOption := by
  exact ⟨by decide, by decide⟩

end SE
